import Mathlib

/-!
Verification of the course-plan resolver.

The program fetches a list of courses (each with a subject, a numeric
classId, and a prerequisite expression), computes a linear order in which
the courses can be taken (`determineMajorPlan`), and posts either the plan
or the string "no solution".  The definitions below are a shallow
embedding of the resolver core:

* `CourseInfo`, `PreReqValue`, `PreReq`, `Course` mirror the TypeScript
  interfaces in `courseTypes.ts`.  The `type` field of a prerequisite node
  is a string because the JSON input may carry any tag; the enum
  `PreReqType` contributes the two recognized string constants.
* JavaScript's insertion-ordered `Map<CourseUID, Course>` is modelled as an
  association list with pairwise-distinct keys: `Map.has` is `mapHas`,
  `Map.set` is `mapSet` (replace in place if the key is present, append
  otherwise), `Map.size` is the length, and `[...map.values()]` is the
  list of second components.
* `isPreReqSatisfied` / `isPrereqValueTaken` mirror the mutually recursive
  evaluator; a thrown `Error` is modelled by the `Except.error` case, the
  short-circuiting of `Array.prototype.every` / `some` by the explicit
  recursions `checkEvery` / `checkSome`.
* `runRound` models one evaluation of `courses.filter(...)` with its
  side-effecting callback; `resolveLoop` models the `while` loop of
  `determineMajorPlan` (entered with `solutionIsPossible = true`, which the
  recursion maintains: it only re-enters after a round that made progress).
-/

/-- TS interface `CourseInfo`: the identifying fields of a course. -/
structure CourseInfo where
  subject : String
  classId : Int
deriving DecidableEq, Repr

/-- TS enum member `PreReqType.AND`, the string "and". -/
def PreReqType.AND : String := "and"

/-- TS enum member `PreReqType.OR`, the string "or". -/
def PreReqType.OR : String := "or"

/-- TS union `PreReqValue = CourseInfo | PreReq`, with the nested `PreReq`
node unfolded into its `type` and `values` fields.  A `course` leaf is a
value on which the type guard `isCourseInfo` (presence of `classId` and
`subject`) holds; a `prereq` node carries a combinator tag and children. -/
inductive PreReqValue where
  | course (info : CourseInfo)
  | prereq (type : String) (values : List PreReqValue)
deriving Repr

/-- TS interface `PreReq { type, values }`: a prerequisite is always an
internal node. -/
structure PreReq where
  type : String
  values : List PreReqValue
deriving Repr

/-- TS interface `Course extends CourseInfo { prereqs }`. -/
structure Course where
  subject : String
  classId : Int
  prereqs : PreReq
deriving Repr

/-- The `CourseInfo` part of a `Course` (TypeScript passes the course object
itself where a `CourseInfo` is expected; structural typing). -/
def Course.toInfo (c : Course) : CourseInfo := ⟨c.subject, c.classId⟩

/-- TS type `CourseUID = string`. -/
abbrev CourseUID := String

/-- The model of `Map<CourseUID, Course>`: an insertion-ordered association
list (keys are pairwise distinct throughout the run, starting from the
empty map). -/
abbrev TakenMap := List (CourseUID × Course)

/-- Source `getCourseUID`: the template literal
`` `${course.subject}${course.classId}` ``. -/
def getCourseUID (course : CourseInfo) : CourseUID :=
  course.subject ++ toString course.classId

/-- JS `Map.prototype.has`. -/
def mapHas (m : TakenMap) (k : CourseUID) : Bool :=
  m.any fun p => p.1 == k

/-- JS `Map.prototype.set`: if the key is present its value is replaced and
the entry keeps its position; otherwise the new entry is appended. -/
def mapSet (m : TakenMap) (k : CourseUID) (v : Course) : TakenMap :=
  if mapHas m k then m.map (fun p => if p.1 == k then (k, v) else p)
  else m ++ [(k, v)]

/-- Source `isCourseTaken`: membership of the course UID among the keys of
the taken-courses map. -/
def isCourseTaken (course : CourseInfo) (takenCoursesMap : TakenMap) : Bool :=
  mapHas takenCoursesMap (getCourseUID course)

mutual

/-- Source `isPreReqSatisfied`, on the `type` and `values` fields of a
`PreReq` node: `"and"` requires every child satisfied, `"or"` requires some
child satisfied, any other tag throws `Error("Unexpected prereq
structure.")` (modelled by `Except.error`). -/
def isPreReqSatisfiedCore (type : String) (values : List PreReqValue)
    (takenCoursesMap : TakenMap) : Except String Bool :=
  if type = PreReqType.AND then checkEvery values takenCoursesMap
  else if type = PreReqType.OR then checkSome values takenCoursesMap
  else .error "Unexpected prereq structure."
termination_by (sizeOf values, 1)

/-- JS `values.every(checkPrereqValue)`: left-to-right, short-circuiting at
the first `false`, propagating a thrown error. -/
def checkEvery (values : List PreReqValue) (takenCoursesMap : TakenMap) :
    Except String Bool :=
  match values with
  | [] => .ok true
  | v :: vs =>
    match isPrereqValueTaken v takenCoursesMap with
    | .error e => .error e
    | .ok true => checkEvery vs takenCoursesMap
    | .ok false => .ok false
termination_by (sizeOf values, 0)

/-- JS `values.some(checkPrereqValue)`: left-to-right, short-circuiting at
the first `true`, propagating a thrown error. -/
def checkSome (values : List PreReqValue) (takenCoursesMap : TakenMap) :
    Except String Bool :=
  match values with
  | [] => .ok false
  | v :: vs =>
    match isPrereqValueTaken v takenCoursesMap with
    | .error e => .error e
    | .ok true => .ok true
    | .ok false => checkSome vs takenCoursesMap
termination_by (sizeOf values, 0)

/-- Source `isPrereqValueTaken`: a leaf (per the `isCourseInfo` type guard)
is checked against the taken map, an internal node is evaluated
recursively. -/
def isPrereqValueTaken (prereqValue : PreReqValue) (takenCoursesMap : TakenMap) :
    Except String Bool :=
  match prereqValue with
  | .course info => .ok (isCourseTaken info takenCoursesMap)
  | .prereq t vs => isPreReqSatisfiedCore t vs takenCoursesMap
termination_by (sizeOf prereqValue, 0)

end

/-- Source `isPreReqSatisfied` applied to a whole `PreReq` object. -/
def isPreReqSatisfied (preReq : PreReq) (takenCoursesMap : TakenMap) :
    Except String Bool :=
  isPreReqSatisfiedCore preReq.type preReq.values takenCoursesMap

/-- Source `areAllCoursesTaken` (closure over `coursesAmount`): the map of
taken courses has as many entries as the original course list. -/
def areAllCoursesTaken (coursesAmount : Nat) (takenCourses : TakenMap) : Bool :=
  takenCourses.length == coursesAmount

/-- One execution of `courses.filter(...)` inside the loop: each course is
evaluated against the current map; a satisfied course is inserted into the
map (under its UID) and dropped, an unsatisfied one is kept; a thrown
evaluator error aborts the scan. -/
def runRound (courses : List Course) (takenCoursesMap : TakenMap) :
    Except String (List Course × TakenMap) :=
  match courses with
  | [] => .ok ([], takenCoursesMap)
  | c :: cs =>
    match isPreReqSatisfied c.prereqs takenCoursesMap with
    | .error e => .error e
    | .ok true => runRound cs (mapSet takenCoursesMap (getCourseUID c.toInfo) c)
    | .ok false =>
      match runRound cs takenCoursesMap with
      | .error e => .error e
      | .ok (rest, m) => .ok (c :: rest, m)

/-- The `while` loop of `determineMajorPlan`, entered with
`solutionIsPossible = true`.  If all courses are taken the loop exits and
the plan (the map's insertion-ordered values) is returned; otherwise a
round runs; if it made progress the loop continues, else
`solutionIsPossible` becomes `false`, the loop exits, and `null`
(modelled as `none`) is returned. -/
def resolveLoop (courses : List Course) (takenCoursesMap : TakenMap)
    (coursesAmount : Nat) : Except String (Option (List Course)) :=
  if areAllCoursesTaken coursesAmount takenCoursesMap then
    .ok (some (takenCoursesMap.map Prod.snd))
  else
    match runRound courses takenCoursesMap with
    | .error e => .error e
    | .ok (remainingCourses, m) =>
      if h : remainingCourses.length < courses.length then
        resolveLoop remainingCourses m coursesAmount
      else .ok none
termination_by courses.length

/-- Source `determineMajorPlan`: `.ok (some plan)` models returning a plan,
`.ok none` models returning `null`, `.error` models an uncaught thrown
`Error`. -/
def determineMajorPlan (courses : List Course) :
    Except String (Option (List Course)) :=
  resolveLoop courses [] courses.length

/-- The number of iterations of the `while` loop body that
`determineMajorPlan` executes, mirroring `resolveLoop` step for step (a
round whose evaluator throws is counted: its body started executing). -/
def resolveLoopRounds (courses : List Course) (takenCoursesMap : TakenMap)
    (coursesAmount : Nat) : Nat :=
  if areAllCoursesTaken coursesAmount takenCoursesMap then 0
  else
    match runRound courses takenCoursesMap with
    | .error _ => 1
    | .ok (remainingCourses, m) =>
      if h : remainingCourses.length < courses.length then
        1 + resolveLoopRounds remainingCourses m coursesAmount
      else 1
termination_by courses.length

/-- Round count of a full run of `determineMajorPlan`. -/
def determineMajorPlanRounds (courses : List Course) : Nat :=
  resolveLoopRounds courses [] courses.length

/-! ### Specification-side definitions

These describe properties of prerequisite trees and course lists that the
claims quantify over; they are recursive walks of the same tree shape. -/

mutual

/-- Every combinator tag occurring in the tree is one of the two recognized
tags "and" / "or" (so the evaluator never throws on it). -/
def wellFormedValue : PreReqValue → Bool
  | .course _ => true
  | .prereq t vs => (t == PreReqType.AND || t == PreReqType.OR) && wellFormedList vs

/-- List version of `wellFormedValue`. -/
def wellFormedList : List PreReqValue → Bool
  | [] => true
  | v :: vs => wellFormedValue v && wellFormedList vs

end

mutual

/-- Every "or" node occurring in the tree has at least one child. -/
def noEmptyOrValue : PreReqValue → Bool
  | .course _ => true
  | .prereq t vs => (!(t == PreReqType.OR) || !vs.isEmpty) && noEmptyOrList vs

/-- List version of `noEmptyOrValue`. -/
def noEmptyOrList : List PreReqValue → Bool
  | [] => true
  | v :: vs => noEmptyOrValue v && noEmptyOrList vs

end

mutual

/-- The course references at the leaves of a prerequisite tree, at any
depth, left to right. -/
def leafRefsValue : PreReqValue → List CourseInfo
  | .course i => [i]
  | .prereq _ vs => leafRefsList vs

/-- List version of `leafRefsValue`. -/
def leafRefsList : List PreReqValue → List CourseInfo
  | [] => []
  | v :: vs => leafRefsValue v ++ leafRefsList vs

end

/-- The internal node of a `PreReq` object as a `PreReqValue`. -/
def PreReq.toValue (p : PreReq) : PreReqValue := .prereq p.type p.values

/-- A whole `PreReq` object is well formed. -/
def wellFormed (p : PreReq) : Bool := wellFormedValue p.toValue

/-- A whole `PreReq` object has no empty "or" node. -/
def noEmptyOr (p : PreReq) : Bool := noEmptyOrValue p.toValue

/-- The leaf course references of a whole `PreReq` object. -/
def leafRefs (p : PreReq) : List CourseInfo := leafRefsList p.values

/-- The UIDs of the courses of a list, in order. -/
def uidsOf (courses : List Course) : List CourseUID :=
  courses.map fun c => getCourseUID c.toInfo

/-- The taken-courses map obtained by inserting the given courses in order
under their UIDs (each key assumed fresh on insertion). -/
def toMap (courses : List Course) : TakenMap :=
  courses.map fun c => (getCourseUID c.toInfo, c)

/-! ### Concrete inputs used by the example-based claims -/

/-- Cycle example, course A: prerequisite `and({B1})`. -/
def cycleA : Course := ⟨"A", 1, ⟨PreReqType.AND, [.course ⟨"B", 1⟩]⟩⟩

/-- Cycle example, course B: prerequisite `and({A1})`. -/
def cycleB : Course := ⟨"B", 1, ⟨PreReqType.AND, [.course ⟨"A", 1⟩]⟩⟩

/-- Single course whose prerequisite is the empty "or" node. -/
def emptyOrCourse : Course := ⟨"CS", 1, ⟨PreReqType.OR, []⟩⟩

/-- Single course whose prerequisite is the empty "and" node. -/
def emptyAndCourse : Course := ⟨"CS", 1, ⟨PreReqType.AND, []⟩⟩

/-- Round-order example: CS1 requires `and({CS2, CS3})`. -/
def roundCS1 : Course := ⟨"CS", 1, ⟨PreReqType.AND, [.course ⟨"CS", 2⟩, .course ⟨"CS", 3⟩]⟩⟩

/-- Round-order example: CS2 requires `and()`. -/
def roundCS2 : Course := ⟨"CS", 2, ⟨PreReqType.AND, []⟩⟩

/-- Round-order example: CS3 requires `or({CS2})`. -/
def roundCS3 : Course := ⟨"CS", 3, ⟨PreReqType.OR, [.course ⟨"CS", 2⟩]⟩⟩

/-- Ordering counterexample, course A: prerequisite `and()`. -/
def ordA : Course := ⟨"A", 1, ⟨PreReqType.AND, []⟩⟩

/-- Ordering counterexample, course B: prerequisite `and({X1})`. -/
def ordB : Course := ⟨"B", 1, ⟨PreReqType.AND, [.course ⟨"X", 1⟩]⟩⟩

/-- Ordering counterexample, course C: prerequisite `or({A1, B1})`. -/
def ordC : Course := ⟨"C", 1, ⟨PreReqType.OR, [.course ⟨"A", 1⟩, .course ⟨"B", 1⟩]⟩⟩

/-- Ordering counterexample, course X: prerequisite `and({A1})`. -/
def ordX : Course := ⟨"X", 1, ⟨PreReqType.AND, [.course ⟨"A", 1⟩]⟩⟩

/-- The ordering counterexample input list. -/
def ordInput : List Course := [ordA, ordB, ordC, ordX]

/-- A rank function witnessing that the leaf-reference graph of `ordInput`
has no cycle: every leaf reference strictly decreases it. -/
def ordRank (u : CourseUID) : Nat :=
  if u = "A1" then 0 else if u = "X1" then 1 else if u = "B1" then 2 else 3

/-- Duplicate-UID example: course with UID "A1" and prerequisite `and()`. -/
def dupFirst : Course := ⟨"A", 1, ⟨PreReqType.AND, []⟩⟩

/-- Duplicate-UID example: a second course with the same UID "A1", whose
prerequisite `and({A1})` references that UID. -/
def dupSecond : Course := ⟨"A", 1, ⟨PreReqType.AND, [.course ⟨"A", 1⟩]⟩⟩

/-- Key-subset relation between taken-courses maps: every UID present in
the first map is present in the second. -/
def keysSubset (s t : TakenMap) : Prop :=
  ∀ k, mapHas s k = true → mapHas t k = true

/-! ### Helper lemmas -/

/-- Member-wise induction principle for the nested inductive
`PreReqValue`. -/
theorem PreReqValue.inductionOn (P : PreReqValue → Prop)
    (hcourse : ∀ i, P (.course i))
    (hprereq : ∀ t vs, (∀ v ∈ vs, P v) → P (.prereq t vs)) :
    ∀ v, P v := by
  have key : ∀ (n : Nat) (v : PreReqValue), sizeOf v ≤ n → P v := by
    intro n
    induction n with
    | zero =>
      intro v hv
      exfalso
      cases v <;> simp at hv <;> omega
    | succ n ih =>
      intro v hv
      cases v with
      | course i => exact hcourse i
      | prereq t vs =>
        apply hprereq
        intro x hx
        apply ih
        have hlt : sizeOf x < sizeOf vs := List.sizeOf_lt_of_mem hx
        simp at hv
        omega
  intro v
  exact key (sizeOf v) v le_rfl

/-- When every member evaluates without error, `checkEvery` evaluates
without error. -/
theorem checkEvery_ok (vs : List PreReqValue) (m : TakenMap)
    (h : ∀ v ∈ vs, ∃ b, isPrereqValueTaken v m = .ok b) :
    ∃ b, checkEvery vs m = .ok b := by
  induction vs with
  | nil => exact ⟨true, by simp [checkEvery]⟩
  | cons v vs ih =>
    obtain ⟨b, hb⟩ := h v (by simp)
    have hrest := ih fun x hx => h x (by simp [hx])
    obtain ⟨b2, hb2⟩ := hrest
    cases b with
    | true => exact ⟨b2, by rw [checkEvery, hb, hb2]⟩
    | false => exact ⟨false, by rw [checkEvery, hb]⟩

/-- When every member evaluates without error, `checkSome` evaluates
without error. -/
theorem checkSome_ok (vs : List PreReqValue) (m : TakenMap)
    (h : ∀ v ∈ vs, ∃ b, isPrereqValueTaken v m = .ok b) :
    ∃ b, checkSome vs m = .ok b := by
  induction vs with
  | nil => exact ⟨false, by simp [checkSome]⟩
  | cons v vs ih =>
    obtain ⟨b, hb⟩ := h v (by simp)
    have hrest := ih fun x hx => h x (by simp [hx])
    obtain ⟨b2, hb2⟩ := hrest
    cases b with
    | true => exact ⟨true, by rw [checkSome, hb]⟩
    | false => exact ⟨b2, by rw [checkSome, hb, hb2]⟩

/-- Membership version of `wellFormedList`. -/
theorem wellFormedList_mem {vs : List PreReqValue}
    (h : wellFormedList vs = true) : ∀ v ∈ vs, wellFormedValue v = true := by
  induction vs with
  | nil => simp
  | cons x xs ih =>
    rw [wellFormedList] at h
    simp only [Bool.and_eq_true] at h
    intro v hv
    rcases List.mem_cons.mp hv with h1 | h1
    · exact h1 ▸ h.1
    · exact ih h.2 v h1

/-- Membership version of `noEmptyOrList`. -/
theorem noEmptyOrList_mem {vs : List PreReqValue}
    (h : noEmptyOrList vs = true) : ∀ v ∈ vs, noEmptyOrValue v = true := by
  induction vs with
  | nil => simp
  | cons x xs ih =>
    rw [noEmptyOrList] at h
    simp only [Bool.and_eq_true] at h
    intro v hv
    rcases List.mem_cons.mp hv with h1 | h1
    · exact h1 ▸ h.1
    · exact ih h.2 v h1

/-- Leaves of a member are leaves of the list. -/
theorem leafRefsList_mem {vs : List PreReqValue} {v : PreReqValue}
    (hv : v ∈ vs) : ∀ i ∈ leafRefsValue v, i ∈ leafRefsList vs := by
  induction vs with
  | nil => simp at hv
  | cons x xs ih =>
    intro i hi
    rw [leafRefsList]
    rcases List.mem_cons.mp hv with h1 | h1
    · exact List.mem_append.mpr (Or.inl (h1 ▸ hi))
    · exact List.mem_append.mpr (Or.inr (ih h1 i hi))

/-- A well-formed prerequisite value always evaluates without error. -/
theorem isPrereqValueTaken_ok :
    ∀ (v : PreReqValue), wellFormedValue v = true →
      ∀ m, ∃ b, isPrereqValueTaken v m = .ok b := by
  apply PreReqValue.inductionOn
    (P := fun v => wellFormedValue v = true → ∀ m, ∃ b, isPrereqValueTaken v m = .ok b)
  · intro i _ m
    exact ⟨isCourseTaken i m, by rw [isPrereqValueTaken]⟩
  · intro t vs ih hwf m
    rw [wellFormedValue] at hwf
    simp only [Bool.and_eq_true, Bool.or_eq_true, beq_iff_eq] at hwf
    have hmem : ∀ v ∈ vs, ∃ b, isPrereqValueTaken v m = .ok b :=
      fun v hv => ih v hv (wellFormedList_mem hwf.2 v hv) m
    rw [isPrereqValueTaken, isPreReqSatisfiedCore]
    rcases hwf.1 with h1 | h1
    · rw [if_pos h1]
      exact checkEvery_ok vs m hmem
    · by_cases h2 : t = PreReqType.AND
      · rw [if_pos h2]
        exact checkEvery_ok vs m hmem
      · rw [if_neg h2, if_pos h1]
        exact checkSome_ok vs m hmem

/-- When every member evaluates to `true`, `checkEvery` returns `true`. -/
theorem checkEvery_true {vs : List PreReqValue} {m : TakenMap}
    (h : ∀ v ∈ vs, isPrereqValueTaken v m = .ok true) :
    checkEvery vs m = .ok true := by
  induction vs with
  | nil => simp [checkEvery]
  | cons x xs ih =>
    rw [checkEvery, h x (by simp)]
    exact ih fun v hv => h v (by simp [hv])

/-- When `checkEvery` returns `true`, every member evaluates to `true`. -/
theorem checkEvery_true_mem {vs : List PreReqValue} {m : TakenMap}
    (h : checkEvery vs m = .ok true) :
    ∀ v ∈ vs, isPrereqValueTaken v m = .ok true := by
  induction vs with
  | nil => simp
  | cons x xs ih =>
    rw [checkEvery] at h
    intro v hv
    cases heval : isPrereqValueTaken x m with
    | error e => rw [heval] at h; cases h
    | ok b =>
      cases b with
      | false => rw [heval] at h; cases h
      | true =>
        rw [heval] at h
        rcases List.mem_cons.mp hv with h1 | h1
        · exact h1 ▸ heval
        · exact ih h v h1

/-- When `checkSome` returns `true`, some member evaluates to `true`. -/
theorem checkSome_true_mem {vs : List PreReqValue} {m : TakenMap}
    (h : checkSome vs m = .ok true) :
    ∃ v ∈ vs, isPrereqValueTaken v m = .ok true := by
  induction vs with
  | nil => rw [checkSome] at h; cases h
  | cons x xs ih =>
    rw [checkSome] at h
    cases heval : isPrereqValueTaken x m with
    | error e => rw [heval] at h; cases h
    | ok b =>
      cases b with
      | true => exact ⟨x, by simp, heval⟩
      | false =>
        rw [heval] at h
        obtain ⟨v, hv, hve⟩ := ih h
        exact ⟨v, by simp [hv], hve⟩

/-- When every member evaluates without error and some member evaluates to
`true`, `checkSome` returns `true`. -/
theorem checkSome_true_of_exists {vs : List PreReqValue} {m : TakenMap}
    (hok : ∀ v ∈ vs, ∃ b, isPrereqValueTaken v m = .ok b)
    (hex : ∃ v ∈ vs, isPrereqValueTaken v m = .ok true) :
    checkSome vs m = .ok true := by
  induction vs with
  | nil => simp at hex
  | cons x xs ih =>
    obtain ⟨b, hb⟩ := hok x (by simp)
    cases b with
    | true => rw [checkSome, hb]
    | false =>
      rw [checkSome, hb]
      obtain ⟨v, hv, hve⟩ := hex
      rcases List.mem_cons.mp hv with h1 | h1
      · rw [h1] at hve; rw [hve] at hb; cases hb
      · exact ih (fun v hv => hok v (by simp [hv])) ⟨v, h1, hve⟩

/-- A well-formed prerequisite value with no empty "or" node evaluates to
`true` once all of its leaf references are taken. -/
theorem isPrereqValueTaken_true_of_leaves :
    ∀ (v : PreReqValue), wellFormedValue v = true → noEmptyOrValue v = true →
      ∀ m, (∀ i ∈ leafRefsValue v, isCourseTaken i m = true) →
      isPrereqValueTaken v m = .ok true := by
  apply PreReqValue.inductionOn
    (P := fun v => wellFormedValue v = true → noEmptyOrValue v = true →
      ∀ m, (∀ i ∈ leafRefsValue v, isCourseTaken i m = true) →
      isPrereqValueTaken v m = .ok true)
  · intro i _ _ m hleaf
    rw [isPrereqValueTaken, hleaf i (by rw [leafRefsValue]; simp)]
  · intro t vs ih hwf hne m hleaf
    rw [wellFormedValue] at hwf
    rw [noEmptyOrValue] at hne
    rw [leafRefsValue] at hleaf
    simp only [Bool.and_eq_true, Bool.or_eq_true, beq_iff_eq, Bool.not_eq_true',
      beq_eq_false_iff_ne, ne_eq, Bool.not_eq_eq_eq_not, Bool.not_true,
      List.isEmpty_eq_false] at hwf hne
    have hmem : ∀ v ∈ vs, isPrereqValueTaken v m = .ok true := by
      intro v hv
      exact ih v hv (wellFormedList_mem hwf.2 v hv) (noEmptyOrList_mem hne.2 v hv) m
        (fun i hi => hleaf i (leafRefsList_mem hv i hi))
    rw [isPrereqValueTaken, isPreReqSatisfiedCore]
    by_cases h2 : t = PreReqType.AND
    · rw [if_pos h2]
      exact checkEvery_true hmem
    · rcases hwf.1 with h1 | h1
      · exact absurd h1 h2
      · rw [if_neg h2, if_pos h1]
        have hvs : vs ≠ [] := by
          rcases hne.1 with h3 | h3
          · exact absurd h1 h3
          · exact h3
        obtain ⟨x, xs, rfl⟩ := List.exists_cons_of_ne_nil hvs
        exact checkSome_true_of_exists
          (fun v hv => ⟨true, hmem v hv⟩)
          ⟨x, by simp, hmem x (by simp)⟩

/-- Monotonicity of the evaluator in the taken-courses map (for well-formed
prerequisite values): growing the key set preserves a `true` verdict. -/
theorem isPrereqValueTaken_mono :
    ∀ (v : PreReqValue), wellFormedValue v = true →
      ∀ (s t : TakenMap), keysSubset s t →
      isPrereqValueTaken v s = .ok true → isPrereqValueTaken v t = .ok true := by
  apply PreReqValue.inductionOn
    (P := fun v => wellFormedValue v = true →
      ∀ (s t : TakenMap), keysSubset s t →
      isPrereqValueTaken v s = .ok true → isPrereqValueTaken v t = .ok true)
  · intro i _ s t hsub hs
    rw [isPrereqValueTaken] at hs ⊢
    have : isCourseTaken i s = true := by
      cases h : isCourseTaken i s
      · rw [h] at hs; cases hs
      · rfl
    rw [isCourseTaken] at this ⊢
    rw [hsub _ this]
  · intro ty vs ih hwf s t hsub hs
    rw [wellFormedValue] at hwf
    simp only [Bool.and_eq_true, Bool.or_eq_true, beq_iff_eq] at hwf
    have hmono : ∀ v ∈ vs, isPrereqValueTaken v s = .ok true →
        isPrereqValueTaken v t = .ok true :=
      fun v hv => ih v hv (wellFormedList_mem hwf.2 v hv) s t hsub
    rw [isPrereqValueTaken, isPreReqSatisfiedCore] at hs ⊢
    by_cases h2 : ty = PreReqType.AND
    · rw [if_pos h2] at hs ⊢
      exact checkEvery_true fun v hv => hmono v hv (checkEvery_true_mem hs v hv)
    · rcases hwf.1 with h1 | h1
      · exact absurd h1 h2
      · rw [if_neg h2, if_pos h1] at hs ⊢
        obtain ⟨v, hv, hve⟩ := checkSome_true_mem hs
        exact checkSome_true_of_exists
          (fun x hx => isPrereqValueTaken_ok x (wellFormedList_mem hwf.2 x hx) t)
          ⟨v, hv, hmono v hv hve⟩

/-- Evaluating a `PreReq` object equals evaluating its node value. -/
theorem isPrereqValueTaken_toValue (p : PreReq) (m : TakenMap) :
    isPrereqValueTaken p.toValue m = isPreReqSatisfied p m := by
  rw [PreReq.toValue, isPrereqValueTaken]
  rfl

/-! ### Claim theorems -/

/-- C2: for the two-course direct 2-cycle (A requires B, B requires A),
`determineMajorPlan` returns `null` (`.ok none`): the `NoSolution` outcome
is delivered as a normal return value (`Except.ok`), not as a thrown
exception (`Except.error`). -/
theorem c2_cycle_no_solution : determineMajorPlan [cycleA, cycleB] = .ok none := by
  simp [determineMajorPlan, resolveLoop, runRound, isPreReqSatisfied,
    isPreReqSatisfiedCore, checkEvery, checkSome, isPrereqValueTaken,
    isCourseTaken, mapHas, mapSet, getCourseUID, areAllCoursesTaken,
    cycleA, cycleB, Course.toInfo, PreReqType.AND, PreReqType.OR]

/-- C3: a prerequisite node whose combinator tag is neither "and" nor "or"
makes the evaluator signal the malformed-prerequisite failure (the thrown
`Error("Unexpected prereq structure.")`, modelled as `Except.error`)
instead of returning a boolean. -/
theorem c3_malformed_error (t : String) (vs : List PreReqValue) (m : TakenMap)
    (h1 : t ≠ PreReqType.AND) (h2 : t ≠ PreReqType.OR) :
    isPreReqSatisfied ⟨t, vs⟩ m = .error "Unexpected prereq structure." := by
  show isPreReqSatisfiedCore t vs m = _
  rw [isPreReqSatisfiedCore, if_neg h1, if_neg h2]

/-- Witness for C3 at the concrete tag "xor". -/
theorem c3_malformed_error_witness :
    ("xor" ≠ PreReqType.AND) ∧ ("xor" ≠ PreReqType.OR) ∧
    isPreReqSatisfied ⟨"xor", []⟩ [] = .error "Unexpected prereq structure." :=
  ⟨by decide, by decide, c3_malformed_error "xor" [] [] (by decide) (by decide)⟩

/-- C4: an "or" node with no children evaluates to `false` under every
taken-courses map, and the single-course input whose prerequisite is the
empty "or" node resolves to `null` (`NoSolution`). -/
theorem c4_empty_or_unsatisfied :
    (∀ m : TakenMap, isPreReqSatisfied ⟨PreReqType.OR, []⟩ m = .ok false) ∧
    determineMajorPlan [emptyOrCourse] = .ok none := by
  constructor
  · intro m
    simp [isPreReqSatisfied, isPreReqSatisfiedCore, checkSome,
      PreReqType.AND, PreReqType.OR]
  · simp [determineMajorPlan, resolveLoop, runRound, isPreReqSatisfied,
      isPreReqSatisfiedCore, checkEvery, checkSome, isPrereqValueTaken,
      isCourseTaken, mapHas, mapSet, getCourseUID, areAllCoursesTaken,
      emptyOrCourse, Course.toInfo, PreReqType.AND, PreReqType.OR]

/-- C5: an "and" node with no children evaluates to `true` under every
taken-courses map, and the single-course input whose prerequisite is the
empty "and" node resolves to the one-element plan (promoted in the first
round). -/
theorem c5_empty_and_satisfied :
    (∀ m : TakenMap, isPreReqSatisfied ⟨PreReqType.AND, []⟩ m = .ok true) ∧
    determineMajorPlan [emptyAndCourse] = .ok (some [emptyAndCourse]) := by
  constructor
  · intro m
    simp [isPreReqSatisfied, isPreReqSatisfiedCore, checkEvery,
      PreReqType.AND, PreReqType.OR]
  · simp [determineMajorPlan, resolveLoop, runRound, isPreReqSatisfied,
      isPreReqSatisfiedCore, checkEvery, checkSome, isPrereqValueTaken,
      isCourseTaken, mapHas, mapSet, getCourseUID, areAllCoursesTaken,
      emptyAndCourse, Course.toInfo, PreReqType.AND, PreReqType.OR]

set_option maxRecDepth 4000 in
/-- C6: courses promoted earlier in a round are visible to later courses of
the same round (CS3's `or({CS2})` is satisfied in round 1 by CS2, promoted
moments earlier), and same-round promotions appear in input scan order:
the input `[CS1: and({CS2, CS3}), CS2: and(), CS3: or({CS2})]` resolves to
the plan `[CS2, CS3, CS1]`. -/
theorem c6_round_scan_order :
    determineMajorPlan [roundCS1, roundCS2, roundCS3] =
      .ok (some [roundCS2, roundCS3, roundCS1]) := by
  simp [determineMajorPlan, resolveLoop, runRound, isPreReqSatisfied,
    isPreReqSatisfiedCore, checkEvery, checkSome, isPrereqValueTaken,
    isCourseTaken, mapHas, mapSet, areAllCoursesTaken,
    roundCS1, roundCS2, roundCS3, Course.toInfo, PreReqType.AND, PreReqType.OR,
    show getCourseUID ⟨"CS", 1⟩ = "CS1" from rfl,
    show getCourseUID ⟨"CS", 2⟩ = "CS2" from rfl,
    show getCourseUID ⟨"CS", 3⟩ = "CS3" from rfl]

/-- C7 (amended): the course UID is a deterministic function of the pair
(subject, classId): equal fields give equal UIDs. -/
theorem c7_uid_deterministic (c1 c2 : CourseInfo)
    (hs : c1.subject = c2.subject) (hc : c1.classId = c2.classId) :
    getCourseUID c1 = getCourseUID c2 := by
  rw [getCourseUID, getCourseUID, hs, hc]

/-- Witness for C7 at a concrete pair of equal-field course infos. -/
theorem c7_uid_deterministic_witness :
    ((⟨"CS", 2500⟩ : CourseInfo).subject = (⟨"CS", 2500⟩ : CourseInfo).subject ∧
     (⟨"CS", 2500⟩ : CourseInfo).classId = (⟨"CS", 2500⟩ : CourseInfo).classId) ∧
    getCourseUID ⟨"CS", 2500⟩ = getCourseUID ⟨"CS", 2500⟩ :=
  ⟨⟨rfl, rfl⟩, c7_uid_deterministic ⟨"CS", 2500⟩ ⟨"CS", 2500⟩ rfl rfl⟩

/-- Counterexample for C7 as stated: the UID map is not injective, so equal
UIDs do not imply equal (subject, classId).  The distinct course infos
(subject "A1", classId 1) and (subject "A", classId 11) both get the UID
"A11". -/
theorem c7_uid_not_injective :
    getCourseUID ⟨"A1", 1⟩ = getCourseUID ⟨"A", 11⟩ ∧
    ¬((⟨"A1", 1⟩ : CourseInfo).subject = (⟨"A", 11⟩ : CourseInfo).subject ∧
      (⟨"A1", 1⟩ : CourseInfo).classId = (⟨"A", 11⟩ : CourseInfo).classId) := by
  constructor
  · decide
  · decide

/-- C10: the evaluator is monotone in the taken-courses map for well-formed
prerequisite expressions: if every key of `s` is a key of `t` and the
expression is satisfied under `s`, it is satisfied under `t`. -/
theorem c10_eval_monotone (p : PreReq) (s t : TakenMap)
    (hwf : wellFormed p = true) (hsub : keysSubset s t)
    (h : isPreReqSatisfied p s = .ok true) :
    isPreReqSatisfied p t = .ok true := by
  rw [← isPrereqValueTaken_toValue] at h ⊢
  exact isPrereqValueTaken_mono p.toValue hwf s t hsub h

/-- Witness for C10 at a concrete expression and concrete growing maps. -/
theorem c10_eval_monotone_witness :
    wellFormed ⟨PreReqType.AND, [.course ⟨"A", 1⟩]⟩ = true ∧
    isPreReqSatisfied ⟨PreReqType.AND, [.course ⟨"A", 1⟩]⟩
      [(getCourseUID ⟨"A", 1⟩, dupFirst), (getCourseUID ⟨"B", 1⟩, cycleB)] =
      .ok true := by
  constructor
  · simp [wellFormed, PreReq.toValue, wellFormedValue, wellFormedList,
      PreReqType.AND, PreReqType.OR]
  · apply c10_eval_monotone ⟨PreReqType.AND, [.course ⟨"A", 1⟩]⟩
      [(getCourseUID ⟨"A", 1⟩, dupFirst)]
      [(getCourseUID ⟨"A", 1⟩, dupFirst), (getCourseUID ⟨"B", 1⟩, cycleB)]
    · simp [wellFormed, PreReq.toValue, wellFormedValue, wellFormedList,
        PreReqType.AND, PreReqType.OR]
    · intro k hk
      simp [mapHas] at hk ⊢
      exact Or.inl hk
    · simp [isPreReqSatisfied, isPreReqSatisfiedCore, checkEvery, checkSome,
        isPrereqValueTaken, isCourseTaken, mapHas,
        PreReqType.AND, PreReqType.OR]

/-- Map membership in terms of the key list. -/
theorem mapHas_iff (m : TakenMap) (k : CourseUID) :
    mapHas m k = true ↔ k ∈ m.map Prod.fst := by
  simp [mapHas, List.mem_map, beq_iff_eq]

/-- Inserting under a fresh key appends the entry. -/
theorem mapSet_fresh {m : TakenMap} {k : CourseUID} (v : Course)
    (h : mapHas m k = false) : mapSet m k v = m ++ [(k, v)] := by
  rw [mapSet, h]
  simp

/-- The key list of a map after `mapSet`: unchanged when the key was
present, extended by the key when it was fresh. -/
theorem mapSet_map_fst (m : TakenMap) (k : CourseUID) (v : Course) :
    (mapSet m k v).map Prod.fst = m.map Prod.fst ∨
      (mapHas m k = false ∧
        (mapSet m k v).map Prod.fst = m.map Prod.fst ++ [k]) := by
  rw [mapSet]
  split
  · left
    rw [List.map_map]
    apply List.map_congr_left
    intro p _
    simp only [Function.comp_apply]
    split
    · next hpk =>
      have hpk2 : p.1 = k := by simpa using hpk
      simp [hpk2]
    · rfl
  · next h =>
    right
    refine ⟨by simpa using h, by simp⟩

/-- A list with a repeated element has strictly fewer distinct elements
than elements. -/
theorem toFinset_card_lt_of_not_nodup {α : Type} [DecidableEq α]
    {l : List α} (h : ¬ l.Nodup) : l.toFinset.card < l.length := by
  rw [List.card_toFinset]
  have hsub : l.dedup.Sublist l := List.dedup_sublist l
  rcases lt_or_eq_of_le hsub.length_le with hlt | heq
  · exact hlt
  · exact absurd (hsub.eq_of_length heq ▸ List.nodup_dedup l) h

/-- A round on well-formed courses never throws, keeps a sublist of its
input, only adds keys drawn from the scanned courses' UIDs, and preserves
distinctness of the map's keys. -/
theorem runRound_keys (cs : List Course) (m : TakenMap)
    (hwf : ∀ c ∈ cs, wellFormed c.prereqs = true) :
    ∃ rem m2, runRound cs m = .ok (rem, m2) ∧
      rem.Sublist cs ∧
      (∀ k ∈ m2.map Prod.fst, k ∈ m.map Prod.fst ∨ k ∈ uidsOf cs) ∧
      ((m.map Prod.fst).Nodup → (m2.map Prod.fst).Nodup) := by
  induction cs generalizing m with
  | nil => exact ⟨[], m, by rw [runRound], List.Sublist.refl [], fun k hk => Or.inl hk, id⟩
  | cons c cs ih =>
    obtain ⟨b, hb⟩ :=
      isPrereqValueTaken_ok c.prereqs.toValue (hwf c (by simp)) m
    rw [isPrereqValueTaken_toValue] at hb
    cases b with
    | true =>
      obtain ⟨rem, m2, hrun, hsub, hkeys, hnd⟩ :=
        ih (mapSet m (getCourseUID c.toInfo) c) (fun x hx => hwf x (by simp [hx]))
      refine ⟨rem, m2, ?_, hsub.cons c, ?_, ?_⟩
      · rw [runRound, hb, hrun]
      · intro k hk
        rcases hkeys k hk with hk1 | hk1
        · rcases mapSet_map_fst m (getCourseUID c.toInfo) c with he | ⟨_, he⟩
          · exact Or.inl (he ▸ hk1)
          · rw [he] at hk1
            rcases List.mem_append.mp hk1 with hk2 | hk2
            · exact Or.inl hk2
            · refine Or.inr ?_
              rw [uidsOf]
              simp at hk2
              simp [hk2]
        · refine Or.inr ?_
          rw [uidsOf] at hk1 ⊢
          simp at hk1 ⊢
          exact Or.inr hk1
      · intro hnod
        apply hnd
        rcases mapSet_map_fst m (getCourseUID c.toInfo) c with he | ⟨hfresh, he⟩
        · exact he ▸ hnod
        · rw [he]
          apply List.Nodup.append hnod (by simp)
          intro a ha hb2
          simp at hb2
          subst hb2
          exact absurd ((mapHas_iff m _).mpr ha) (by rw [hfresh]; simp)
    | false =>
      obtain ⟨rem, m2, hrun, hsub, hkeys, hnd⟩ :=
        ih m (fun x hx => hwf x (by simp [hx]))
      refine ⟨c :: rem, m2, ?_, hsub.cons₂ c, ?_, hnd⟩
      · rw [runRound, hb, hrun]
      · intro k hk
        rcases hkeys k hk with hk1 | hk1
        · exact Or.inl hk1
        · refine Or.inr ?_
          rw [uidsOf] at hk1 ⊢
          simp at hk1 ⊢
          exact Or.inr hk1

/-- When the map's distinct keys and all course UIDs are drawn from a pool
with fewer than `amount` distinct values, the loop can never reach
`amount` taken courses and exits through a zero-progress round, returning
`null`. -/
theorem resolveLoop_none (U : List CourseUID) :
    ∀ (n : Nat) (cs : List Course) (m : TakenMap) (amount : Nat),
    cs.length ≤ n →
    (∀ c ∈ cs, wellFormed c.prereqs = true) →
    (m.map Prod.fst).Nodup →
    (∀ k ∈ m.map Prod.fst, k ∈ U) →
    (∀ c ∈ cs, getCourseUID c.toInfo ∈ U) →
    U.toFinset.card < amount →
    resolveLoop cs m amount = .ok none := by
  intro n
  induction n with
  | zero =>
    intro cs m amount hlen hwf hnd hmk hck hcard
    have hm : m.length < amount := by
      have h1 : (m.map Prod.fst).toFinset ⊆ U.toFinset := fun x hx =>
        List.mem_toFinset.mpr (hmk x (List.mem_toFinset.mp hx))
      have h2 := Finset.card_le_card h1
      have h3 := List.toFinset_card_of_nodup hnd
      have h4 : (m.map Prod.fst).length = m.length := List.length_map m Prod.fst
      omega
    have hcs : cs = [] := List.length_eq_zero.mp (Nat.le_zero.mp hlen)
    subst hcs
    rw [resolveLoop]
    rw [if_neg (by simp [areAllCoursesTaken]; omega)]
    rw [runRound]
    simp
  | succ n ih =>
    intro cs m amount hlen hwf hnd hmk hck hcard
    have hm : m.length < amount := by
      have h1 : (m.map Prod.fst).toFinset ⊆ U.toFinset := fun x hx =>
        List.mem_toFinset.mpr (hmk x (List.mem_toFinset.mp hx))
      have h2 := Finset.card_le_card h1
      have h3 := List.toFinset_card_of_nodup hnd
      have h4 : (m.map Prod.fst).length = m.length := List.length_map m Prod.fst
      omega
    obtain ⟨rem, m2, hrun, hsub, hkeys, hndp⟩ := runRound_keys cs m hwf
    rw [resolveLoop]
    rw [if_neg (by simp [areAllCoursesTaken]; omega)]
    rw [hrun]
    show (if _ : rem.length < cs.length then resolveLoop rem m2 amount
      else Except.ok none) = Except.ok none
    by_cases hprog : rem.length < cs.length
    · rw [dif_pos hprog]
      apply ih rem m2 amount (by omega)
        (fun c hc => hwf c (hsub.mem hc))
        (hndp hnd)
        ?_
        (fun c hc => hck c (hsub.mem hc))
        hcard
      intro k hk
      rcases hkeys k hk with h1 | h1
      · exact hmk k h1
      · rw [uidsOf] at h1
        obtain ⟨c, hc, rfl⟩ := List.mem_map.mp h1
        exact hck c hc
    · rw [dif_neg hprog]

/-- The loop executes at most one round more than the number of courses it
starts from: every round except possibly the last removes at least one
course. -/
theorem resolveLoopRounds_le :
    ∀ (n : Nat) (courses : List Course) (m : TakenMap) (amount : Nat),
    courses.length ≤ n →
    resolveLoopRounds courses m amount ≤ courses.length + 1 := by
  intro n
  induction n with
  | zero =>
    intro courses m amount hlen
    rw [resolveLoopRounds]
    split
    · omega
    · split
      · omega
      · split
        · omega
        · omega
  | succ n ih =>
    intro courses m amount hlen
    rw [resolveLoopRounds]
    split
    · omega
    · split
      · omega
      · split
        · rename_i remCourses mAfter heq hprog
          have h2 := ih remCourses mAfter amount (by omega)
          omega
        · omega

/-- C8 (amended): the fixed-point loop always terminates and executes at
most `|courses| + 1` rounds: every round except possibly the last removes
at least one course from the remaining list, and one extra zero-progress
round beyond `|courses|` is possible when duplicate UIDs keep the
taken-courses map from ever reaching size `|courses|`. -/
theorem c8_rounds_bounded (courses : List Course) :
    determineMajorPlanRounds courses ≤ courses.length + 1 := by
  rw [determineMajorPlanRounds]
  exact resolveLoopRounds_le courses.length courses [] courses.length le_rfl

/-- Counterexample for C8 as stated: with the 2-course input
`[dupSecond, dupFirst]`, whose two courses share the UID "A1", the loop
executes 3 rounds — more than the claimed bound of `|courses| = 2`.
Round 1 promotes `dupFirst`, round 2 promotes `dupSecond` (overwriting the
map entry, so the map stays at size 1), and round 3 makes no progress. -/
theorem c8_rounds_counterexample :
    determineMajorPlanRounds [dupSecond, dupFirst] = 3 ∧
    ¬(determineMajorPlanRounds [dupSecond, dupFirst] ≤
        ([dupSecond, dupFirst] : List Course).length) := by
  have h : determineMajorPlanRounds [dupSecond, dupFirst] = 3 := by
    simp [determineMajorPlanRounds, resolveLoopRounds, runRound, isPreReqSatisfied,
      isPreReqSatisfiedCore, checkEvery, checkSome, isPrereqValueTaken,
      isCourseTaken, mapHas, mapSet, areAllCoursesTaken,
      dupFirst, dupSecond, Course.toInfo, PreReqType.AND, PreReqType.OR,
      show getCourseUID ⟨"A", 1⟩ = "A1" from rfl]
  exact ⟨h, by rw [h]; simp⟩

/-- C9: an input containing two entries with the same UID (and otherwise
well-formed prerequisite trees, so that evaluation returns rather than
throws) always resolves to `null`: the taken-courses map holds at most one
entry per UID, so it can never reach the input length and the loop ends in
a zero-progress round. -/
theorem c9_duplicate_uid_no_solution (courses : List Course)
    (hwf : ∀ c ∈ courses, wellFormed c.prereqs = true)
    (hdup : ¬ (uidsOf courses).Nodup) :
    determineMajorPlan courses = .ok none := by
  rw [determineMajorPlan]
  apply resolveLoop_none (uidsOf courses) courses.length courses [] courses.length
    le_rfl hwf (by simp) (by simp)
    (fun c hc => by rw [uidsOf]; exact List.mem_map.mpr ⟨c, hc, rfl⟩)
  have h1 : (uidsOf courses).toFinset.card < (uidsOf courses).length :=
    toFinset_card_lt_of_not_nodup hdup
  have h2 : (uidsOf courses).length = courses.length := by
    rw [uidsOf]; exact List.length_map courses _
  omega

/-- Witness for C9 at the concrete duplicated input `[dupFirst, dupFirst]`. -/
theorem c9_duplicate_uid_witness :
    (∀ c ∈ [dupFirst, dupFirst], wellFormed c.prereqs = true) ∧
    ¬ (uidsOf [dupFirst, dupFirst]).Nodup ∧
    determineMajorPlan [dupFirst, dupFirst] = .ok none := by
  refine ⟨?_, ?_, ?_⟩
  · intro c hc
    rcases List.mem_cons.mp hc with h1 | h1
    · subst h1
      simp [dupFirst, wellFormed, PreReq.toValue, wellFormedValue,
        wellFormedList, PreReqType.AND, PreReqType.OR]
    · simp at h1
      subst h1
      simp [dupFirst, wellFormed, PreReq.toValue, wellFormedValue,
        wellFormedList, PreReqType.AND, PreReqType.OR]
  · simp [uidsOf, dupFirst, Course.toInfo]
  · apply c9_duplicate_uid_no_solution
    · intro c hc
      rcases List.mem_cons.mp hc with h1 | h1
      · subst h1
        simp [dupFirst, wellFormed, PreReq.toValue, wellFormedValue,
          wellFormedList, PreReqType.AND, PreReqType.OR]
      · simp at h1
        subst h1
        simp [dupFirst, wellFormed, PreReq.toValue, wellFormedValue,
          wellFormedList, PreReqType.AND, PreReqType.OR]
    · simp [uidsOf, dupFirst, Course.toInfo]

/-- Map membership distributes over append. -/
theorem mapHas_append (m m2 : TakenMap) (k : CourseUID) :
    mapHas (m ++ m2) k = (mapHas m k || mapHas m2 k) := by
  simp [mapHas, List.any_append]

/-- The insertion map built from an appended list. -/
theorem toMap_append (l1 l2 : List Course) :
    toMap (l1 ++ l2) = toMap l1 ++ toMap l2 := by
  simp [toMap]

/-- The values of the insertion map are the courses themselves. -/
theorem toMap_snd (l : List Course) : (toMap l).map Prod.snd = l := by
  rw [toMap, List.map_map,
    show (Prod.snd ∘ fun c : Course => (getCourseUID c.toInfo, c)) = id from rfl,
    List.map_id]

/-- The keys of the insertion map are the course UIDs. -/
theorem toMap_fst (l : List Course) : (toMap l).map Prod.fst = uidsOf l := by
  simp [toMap, uidsOf, List.map_map]

/-- Evaluating a whole `PreReq` never errors when it is well formed. -/
theorem isPreReqSatisfied_ok (p : PreReq) (m : TakenMap)
    (hwf : wellFormed p = true) : ∃ b, isPreReqSatisfied p m = .ok b := by
  rw [← isPrereqValueTaken_toValue]
  exact isPrereqValueTaken_ok p.toValue hwf m

/-- The leaf references of a whole `PreReq` through its node value. -/
theorem leafRefs_toValue (p : PreReq) : leafRefsValue p.toValue = leafRefs p := by
  rw [PreReq.toValue, leafRefsValue, leafRefs]

/-- A well-formed `PreReq` with no empty "or" node is satisfied once all
its leaf references are taken. -/
theorem isPreReqSatisfied_true_of_leaves (p : PreReq) (m : TakenMap)
    (hwf : wellFormed p = true) (hne : noEmptyOr p = true)
    (hleaf : ∀ i ∈ leafRefs p, isCourseTaken i m = true) :
    isPreReqSatisfied p m = .ok true := by
  rw [← isPrereqValueTaken_toValue]
  apply isPrereqValueTaken_true_of_leaves p.toValue hwf hne
  rw [leafRefs_toValue]
  exact hleaf

/-- A nonempty list has an element minimizing any natural-valued measure. -/
theorem list_exists_min {α : Type} (f : α → Nat) :
    ∀ (l : List α), l ≠ [] → ∃ a ∈ l, ∀ b ∈ l, f a ≤ f b := by
  intro l
  induction l with
  | nil => intro h; exact absurd rfl h
  | cons x xs ih =>
    intro _
    by_cases hxs : xs = []
    · subst hxs
      exact ⟨x, by simp, by simp⟩
    · obtain ⟨a, ha, hmin⟩ := ih hxs
      by_cases hxa : f x ≤ f a
      · refine ⟨x, by simp, ?_⟩
        intro b hb
        rcases List.mem_cons.mp hb with h1 | h1
        · exact h1 ▸ le_rfl
        · exact le_trans hxa (hmin b h1)
      · refine ⟨a, by simp [ha], ?_⟩
        intro b hb
        rcases List.mem_cons.mp hb with h1 | h1
        · exact h1 ▸ le_of_lt (lt_of_not_le hxa)
        · exact hmin b h1

/-- A sublist missing one of the original's elements is strictly shorter. -/
theorem sublist_length_lt {α : Type} {l1 l2 : List α} (hsub : l1.Sublist l2)
    {x : α} (hx : x ∈ l2) (hnx : x ∉ l1) : l1.length < l2.length := by
  rcases lt_or_eq_of_le hsub.length_le with h | h
  · exact h
  · exact absurd ((hsub.eq_of_length h) ▸ hx) hnx

/-- UID list of a cons. -/
theorem uidsOf_cons (c : Course) (cs : List Course) :
    uidsOf (c :: cs) = getCourseUID c.toInfo :: uidsOf cs := rfl

/-- Membership carries over to the UID list. -/
theorem uid_mem_uidsOf {cs : List Course} {x : Course} (h : x ∈ cs) :
    getCourseUID x.toInfo ∈ uidsOf cs := by
  rw [uidsOf]
  exact List.mem_map_of_mem _ h

/-- Full description of one round on a course list whose UIDs are pairwise
distinct and absent from the current map: the round never throws; it
promotes some of the scanned courses, appending them to the map in scan
order under their UIDs, and keeps the rest in order; every promoted course
was satisfied by the map of all courses promoted before it; and every
course whose leaf references were all taken at the start of the round is
promoted. -/
theorem runRound_promote :
    ∀ (cs : List Course) (m : TakenMap),
    (∀ c ∈ cs, wellFormed c.prereqs = true) →
    (∀ c ∈ cs, mapHas m (getCourseUID c.toInfo) = false) →
    (uidsOf cs).Nodup →
    ∃ promoted rem,
      runRound cs m = .ok (rem, m ++ toMap promoted) ∧
      rem.Sublist cs ∧
      (promoted ++ rem).Perm cs ∧
      (∀ pre x post, promoted = pre ++ x :: post →
        isPreReqSatisfied x.prereqs (m ++ toMap pre) = .ok true) ∧
      (∀ x ∈ cs, noEmptyOr x.prereqs = true →
        (∀ i ∈ leafRefs x.prereqs, isCourseTaken i m = true) → x ∉ rem) := by
  intro cs
  induction cs with
  | nil =>
    intro m _ _ _
    refine ⟨[], [], ?_, List.Sublist.refl [], by simp, ?_, by simp⟩
    · rw [runRound]
      simp [toMap]
    · intro pre x post h
      exact absurd h (by simp)
  | cons c cs ih =>
    intro m hwf hfresh hnd
    rw [uidsOf_cons, List.nodup_cons] at hnd
    obtain ⟨hndhead, hndtail⟩ := hnd
    obtain ⟨b, hb⟩ := isPreReqSatisfied_ok c.prereqs m (hwf c (by simp))
    cases b with
    | true =>
      have hfr : mapHas m (getCourseUID c.toInfo) = false := hfresh c (by simp)
      have hm2 : mapSet m (getCourseUID c.toInfo) c = m ++ toMap [c] := by
        rw [mapSet_fresh c hfr]
        rfl
      obtain ⟨promoted', rem, hrun, hsub, hperm, heval, hready⟩ :=
        ih (m ++ toMap [c])
          (fun x hx => hwf x (by simp [hx]))
          (by
            intro x hx
            rw [mapHas_append, hfresh x (by simp [hx])]
            simp [toMap, mapHas]
            intro hcontra
            exact absurd (hcontra ▸ uid_mem_uidsOf hx) hndhead)
          hndtail
      refine ⟨c :: promoted', rem, ?_, hsub.cons c, ?_, ?_, ?_⟩
      · simp only [runRound, hb]
        rw [hm2, hrun, List.append_assoc, ← toMap_append, List.singleton_append]
      · exact hperm.cons c
      · intro pre x post hdecomp
        cases pre with
        | nil =>
          simp at hdecomp
          obtain ⟨rfl, rfl⟩ := hdecomp
          rw [show toMap [] = ([] : TakenMap) from rfl, List.append_nil]
          exact hb
        | cons p pre2 =>
          simp at hdecomp
          obtain ⟨rfl, hdecomp2⟩ := hdecomp
          have h2 := heval pre2 x post hdecomp2
          rw [List.append_assoc, ← toMap_append] at h2
          exact h2
      · intro x hx hnex hlx
        rcases List.mem_cons.mp hx with h1 | h1
        · subst h1
          intro hc
          exact absurd (uid_mem_uidsOf (hsub.mem hc)) hndhead
        · apply hready x h1 hnex
          intro i hi
          have h3 := hlx i hi
          simp only [isCourseTaken] at h3 ⊢
          rw [mapHas_append, h3]
          simp
    | false =>
      obtain ⟨promoted', rem', hrun, hsub, hperm, heval, hready⟩ :=
        ih m
          (fun x hx => hwf x (by simp [hx]))
          (fun x hx => hfresh x (by simp [hx]))
          hndtail
      refine ⟨promoted', c :: rem', ?_, hsub.cons₂ c, ?_, heval, ?_⟩
      · simp only [runRound, hb]
        rw [hrun]
      · exact List.Perm.trans List.perm_middle (hperm.cons c)
      · intro x hx hnex hlx
        rcases List.mem_cons.mp hx with h1 | h1
        · subst h1
          have h2 := isPreReqSatisfied_true_of_leaves x.prereqs m
            (hwf x (by simp)) hnex hlx
          exact absurd (hb.symm.trans h2) (by simp)
        · intro hmem
          rcases List.mem_cons.mp hmem with h2 | h2
          · subst h2
            exact absurd (uid_mem_uidsOf h1) hndhead
          · exact (hready x h1 hnex hlx) h2

/-- In a nonempty remaining list whose leaf references each resolve either
to an already-taken key or to the UID of a remaining course, and whose
leaf references strictly decrease a rank function, the course of minimal
rank has all its leaf references already taken. -/
theorem exists_ready_course (rem : List Course) (m : TakenMap)
    (rank : CourseUID → Nat) (hne : rem ≠ [])
    (hrank : ∀ c ∈ rem, ∀ i ∈ leafRefs c.prereqs,
      rank (getCourseUID i) < rank (getCourseUID c.toInfo))
    (hrefs : ∀ c ∈ rem, ∀ i ∈ leafRefs c.prereqs,
      mapHas m (getCourseUID i) = true ∨ getCourseUID i ∈ uidsOf rem) :
    ∃ c ∈ rem, ∀ i ∈ leafRefs c.prereqs, isCourseTaken i m = true := by
  obtain ⟨c, hc, hmin⟩ :=
    list_exists_min (fun c => rank (getCourseUID c.toInfo)) rem hne
  refine ⟨c, hc, ?_⟩
  intro i hi
  rcases hrefs c hc i hi with h1 | h1
  · simp only [isCourseTaken]
    exact h1
  · exfalso
    rw [uidsOf] at h1
    obtain ⟨d, hd, hdi⟩ := List.mem_map.mp h1
    have h2 := hmin d hd
    have h3 := hrank c hc i hi
    rw [hdi] at h2
    omega

/-- When the remaining list is empty the loop exits immediately through the
all-taken check and returns the promoted courses in order. -/
theorem resolveLoop_complete (courses0 : List Course) (done : List Course)
    (hperm : done.Perm courses0) :
    resolveLoop [] (toMap done) courses0.length = .ok (some done) := by
  rw [resolveLoop, if_pos]
  · rw [toMap_snd]
  · simp [areAllCoursesTaken, toMap]
    exact hperm.length_eq

/-- Main loop invariant for satisfiable inputs.  `courses0` is the original
input: all tags recognized, no empty "or" nodes, pairwise-distinct UIDs,
every leaf reference present among the input UIDs, and a rank function
strictly decreasing along leaf references (no prerequisite cycles).
Starting from the map of an already-promoted prefix `done` and its
permutation complement `rem`, the loop returns a full plan extending
`done`, a permutation of the input in which every course's prerequisite is
satisfied by the set of courses placed before it. -/
theorem resolveLoop_success (courses0 : List Course) (rank : CourseUID → Nat)
    (hwf0 : ∀ c ∈ courses0, wellFormed c.prereqs = true)
    (hne0 : ∀ c ∈ courses0, noEmptyOr c.prereqs = true)
    (hnd0 : (uidsOf courses0).Nodup)
    (href0 : ∀ c ∈ courses0, ∀ i ∈ leafRefs c.prereqs,
      getCourseUID i ∈ uidsOf courses0)
    (hrank0 : ∀ c ∈ courses0, ∀ i ∈ leafRefs c.prereqs,
      rank (getCourseUID i) < rank (getCourseUID c.toInfo)) :
    ∀ (n : Nat) (rem done : List Course),
    rem.length ≤ n →
    ((done ++ rem)).Perm courses0 →
    (∀ pre x post, done = pre ++ x :: post →
      isPreReqSatisfied x.prereqs (toMap pre) = .ok true) →
    ∃ tail, resolveLoop rem (toMap done) courses0.length =
        .ok (some (done ++ tail)) ∧
      ((done ++ tail)).Perm courses0 ∧
      (∀ pre x post, done ++ tail = pre ++ x :: post →
        isPreReqSatisfied x.prereqs (toMap pre) = .ok true) := by
  intro n
  induction n with
  | zero =>
    intro rem done hlen hperm hdone
    have hrem : rem = [] := List.length_eq_zero.mp (Nat.le_zero.mp hlen)
    subst hrem
    rw [List.append_nil] at hperm
    refine ⟨[], ?_, by simpa using hperm, by simpa using hdone⟩
    rw [List.append_nil]
    exact resolveLoop_complete courses0 done hperm
  | succ n ih =>
    intro rem done hlen hperm hdone
    by_cases hrem : rem = []
    · subst hrem
      rw [List.append_nil] at hperm
      refine ⟨[], ?_, by simpa using hperm, by simpa using hdone⟩
      rw [List.append_nil]
      exact resolveLoop_complete courses0 done hperm
    · have hmemrem : ∀ c ∈ rem, c ∈ courses0 :=
        fun c hc => hperm.subset (by simp [hc])
      have hnddr : (uidsOf done ++ uidsOf rem).Nodup := by
        have h1 : (uidsOf (done ++ rem)).Perm (uidsOf courses0) := by
          rw [uidsOf, uidsOf]
          exact hperm.map _
        have h2 := h1.nodup_iff.mpr hnd0
        rwa [uidsOf, List.map_append] at h2
      obtain ⟨hnddone, hndrem, hdisj⟩ := List.nodup_append.mp hnddr
      have hfresh : ∀ c ∈ rem, mapHas (toMap done) (getCourseUID c.toInfo) = false := by
        intro c hc
        cases hmh : mapHas (toMap done) (getCourseUID c.toInfo) with
        | false => rfl
        | true =>
          exfalso
          have h3 := (mapHas_iff _ _).mp hmh
          rw [toMap_fst] at h3
          exact hdisj h3 (uid_mem_uidsOf hc)
      obtain ⟨promoted, rem2, hrun, hsub, hpermR, hevalR, hreadyR⟩ :=
        runRound_promote rem (toMap done)
          (fun c hc => hwf0 c (hmemrem c hc)) hfresh hndrem
      have hrefs : ∀ c ∈ rem, ∀ i ∈ leafRefs c.prereqs,
          mapHas (toMap done) (getCourseUID i) = true ∨
          getCourseUID i ∈ uidsOf rem := by
        intro c hc i hi
        have h1 := href0 c (hmemrem c hc) i hi
        have h2 : (uidsOf (done ++ rem)).Perm (uidsOf courses0) := by
          rw [uidsOf, uidsOf]
          exact hperm.map _
        have h3 : getCourseUID i ∈ uidsOf (done ++ rem) := h2.mem_iff.mpr h1
        rw [uidsOf, List.map_append] at h3
        rcases List.mem_append.mp h3 with h4 | h4
        · left
          rw [mapHas_iff, toMap_fst]
          exact h4
        · right
          exact h4
      obtain ⟨cstar, hcstar, hcleaf⟩ :=
        exists_ready_course rem (toMap done) rank hrem
          (fun c hc => hrank0 c (hmemrem c hc)) hrefs
      have hnotin : cstar ∉ rem2 :=
        hreadyR cstar hcstar (hne0 cstar (hmemrem cstar hcstar)) hcleaf
      have hlt : rem2.length < rem.length := sublist_length_lt hsub hcstar hnotin
      have hdone2 : ∀ pre x post, done ++ promoted = pre ++ x :: post →
          isPreReqSatisfied x.prereqs (toMap pre) = .ok true := by
        intro pre x post hdec
        rcases List.append_eq_append_iff.mp hdec with ⟨a2, ha1, ha2⟩ | ⟨c2, hc1, hc2⟩
        · have h2 := hevalR a2 x post ha2
          rw [← toMap_append] at h2
          rw [ha1]
          exact h2
        · cases c2 with
          | nil =>
            rw [List.append_nil] at hc1
            simp at hc2
            have h2 := hevalR [] x post hc2.symm
            rw [← toMap_append, List.append_nil] at h2
            rw [← hc1]
            exact h2
          | cons y c2t =>
            simp at hc2
            obtain ⟨rfl, _⟩ := hc2
            exact hdone pre x c2t hc1
      have hperm2 : ((done ++ promoted) ++ rem2).Perm courses0 := by
        rw [List.append_assoc]
        exact (List.Perm.append_left done hpermR).trans hperm
      obtain ⟨tail2, hloop, hpermF, hordF⟩ :=
        ih rem2 (done ++ promoted) (by omega) hperm2 hdone2
      refine ⟨promoted ++ tail2, ?_, ?_, ?_⟩
      · rw [resolveLoop, if_neg ?_]
        · rw [hrun]
          show (if _ : rem2.length < rem.length then
              resolveLoop rem2 (toMap done ++ toMap promoted) courses0.length
            else Except.ok none) = _
          rw [dif_pos hlt, ← toMap_append, hloop, List.append_assoc]
        · simp [areAllCoursesTaken, toMap]
          have h5 := hperm.length_eq
          simp at h5
          have h6 : rem.length ≠ 0 := fun h0 => hrem (List.length_eq_zero.mp h0)
          omega
      · rw [← List.append_assoc]
        exact hpermF
      · intro pre x post hdec
        apply hordF pre x post
        rw [← List.append_assoc] at hdec
        exact hdec

/-- C1 (amended): for an input whose UIDs are pairwise distinct, whose
combinator tags are all recognized, whose "or" nodes are all nonempty,
whose leaf references all name UIDs of the input, and whose leaf-reference
graph admits a strictly decreasing rank function (no prerequisite cycles),
`determineMajorPlan` returns a Plan that is a permutation of the input
(every input course exactly once) in which every course's prerequisite
expression is satisfied by exactly the set of courses placed before it in
the Plan.  The original claim's stronger ordering — every transitively
leaf-referenced course appears at an earlier position — is refuted by
`c1_or_reference_after`: a course promoted through one branch of an "or"
node can precede another of its leaf references. -/
theorem c1_acyclic_resolves (courses : List Course) (rank : CourseUID → Nat)
    (hwf : ∀ c ∈ courses, wellFormed c.prereqs = true)
    (hne : ∀ c ∈ courses, noEmptyOr c.prereqs = true)
    (hnd : (uidsOf courses).Nodup)
    (href : ∀ c ∈ courses, ∀ i ∈ leafRefs c.prereqs,
      getCourseUID i ∈ uidsOf courses)
    (hrank : ∀ c ∈ courses, ∀ i ∈ leafRefs c.prereqs,
      rank (getCourseUID i) < rank (getCourseUID c.toInfo)) :
    ∃ plan, determineMajorPlan courses = .ok (some plan) ∧
      plan.Perm courses ∧
      ∀ pre x post, plan = pre ++ x :: post →
        isPreReqSatisfied x.prereqs (toMap pre) = .ok true := by
  obtain ⟨tail, hloop, hperm, hord⟩ :=
    resolveLoop_success courses rank hwf hne hnd href hrank
      courses.length courses [] le_rfl (List.Perm.refl courses)
      (by
        intro pre x post h
        exact absurd h.symm (by simp))
  refine ⟨tail, ?_, by simpa using hperm, by simpa using hord⟩
  rw [determineMajorPlan]
  exact hloop

/-- Witness for the amended C1 at a concrete one-course acyclic input. -/
theorem c1_acyclic_resolves_witness :
    ((∀ c ∈ [emptyAndCourse], wellFormed c.prereqs = true) ∧
     (∀ c ∈ [emptyAndCourse], noEmptyOr c.prereqs = true) ∧
     (uidsOf [emptyAndCourse]).Nodup ∧
     (∀ c ∈ [emptyAndCourse], ∀ i ∈ leafRefs c.prereqs,
        getCourseUID i ∈ uidsOf [emptyAndCourse])) ∧
    (∃ plan, determineMajorPlan [emptyAndCourse] = .ok (some plan) ∧
      plan.Perm [emptyAndCourse] ∧
      ∀ pre x post, plan = pre ++ x :: post →
        isPreReqSatisfied x.prereqs (toMap pre) = .ok true) := by
  constructor
  · refine ⟨?_, ?_, ?_, ?_⟩
    · intro c hc
      simp at hc
      subst hc
      simp [emptyAndCourse, wellFormed, PreReq.toValue, wellFormedValue,
        wellFormedList, PreReqType.AND, PreReqType.OR]
    · intro c hc
      simp at hc
      subst hc
      simp [emptyAndCourse, noEmptyOr, PreReq.toValue, noEmptyOrValue,
        noEmptyOrList, PreReqType.AND, PreReqType.OR]
    · simp [uidsOf, emptyAndCourse, Course.toInfo]
    · intro c hc i hi
      simp at hc
      subst hc
      simp [emptyAndCourse, leafRefs, leafRefsList] at hi
  · apply c1_acyclic_resolves [emptyAndCourse] (fun _ => 0)
    · intro c hc
      simp at hc
      subst hc
      simp [emptyAndCourse, wellFormed, PreReq.toValue, wellFormedValue,
        wellFormedList, PreReqType.AND, PreReqType.OR]
    · intro c hc
      simp at hc
      subst hc
      simp [emptyAndCourse, noEmptyOr, PreReq.toValue, noEmptyOrValue,
        noEmptyOrList, PreReqType.AND, PreReqType.OR]
    · simp [uidsOf, emptyAndCourse, Course.toInfo]
    · intro c hc i hi
      simp at hc
      subst hc
      simp [emptyAndCourse, leafRefs, leafRefsList] at hi
    · intro c hc i hi
      simp at hc
      subst hc
      simp [emptyAndCourse, leafRefs, leafRefsList] at hi

set_option maxRecDepth 8000 in
/-- Counterexample for C1 as stated.  The input
`[A: and(), B: and({X1}), C: or({A1, B1}), X: and({A1})]` satisfies every
hypothesis of the claim: its leaf-reference graph has no cycle (witnessed
by the explicit rank `ordRank`, strictly decreasing along every leaf
reference) and every leaf reference names a course of the list.  Yet the
returned Plan is `[A, C, X, B]`: course C transitively leaf-references
course B (the leaf `B1` is in C's prerequisite), but B appears at position
3, after C at position 1 — C was promoted through the `A1` branch of its
"or" node before B was taken.  So "every transitively leaf-referenced
course appears at an earlier position" is false for this run. -/
theorem c1_or_reference_after :
    determineMajorPlan ordInput = .ok (some [ordA, ordC, ordX, ordB]) ∧
    (⟨"B", 1⟩ : CourseInfo) ∈ leafRefs ordC.prereqs ∧
    getCourseUID (⟨"B", 1⟩ : CourseInfo) = getCourseUID ordB.toInfo ∧
    (uidsOf ordInput).Nodup ∧
    (∀ c ∈ ordInput, ∀ i ∈ leafRefs c.prereqs,
      getCourseUID i ∈ uidsOf ordInput) ∧
    (∀ c ∈ ordInput, ∀ i ∈ leafRefs c.prereqs,
      ordRank (getCourseUID i) < ordRank (getCourseUID c.toInfo)) := by
  refine ⟨?_, ?_, ?_, ?_, ?_, ?_⟩
  · simp [determineMajorPlan, resolveLoop, runRound, isPreReqSatisfied,
      isPreReqSatisfiedCore, checkEvery, checkSome, isPrereqValueTaken,
      isCourseTaken, mapHas, mapSet, areAllCoursesTaken,
      ordInput, ordA, ordB, ordC, ordX, Course.toInfo,
      PreReqType.AND, PreReqType.OR,
      show getCourseUID ⟨"A", 1⟩ = "A1" from rfl,
      show getCourseUID ⟨"B", 1⟩ = "B1" from rfl,
      show getCourseUID ⟨"C", 1⟩ = "C1" from rfl,
      show getCourseUID ⟨"X", 1⟩ = "X1" from rfl]
  · simp [ordC, leafRefs, leafRefsList, leafRefsValue]
  · rfl
  · simp [uidsOf, ordInput, ordA, ordB, ordC, ordX, Course.toInfo,
      show getCourseUID ⟨"A", 1⟩ = "A1" from rfl,
      show getCourseUID ⟨"B", 1⟩ = "B1" from rfl,
      show getCourseUID ⟨"C", 1⟩ = "C1" from rfl,
      show getCourseUID ⟨"X", 1⟩ = "X1" from rfl]
  · intro c hc i hi
    simp [ordInput] at hc
    rcases hc with rfl | rfl | rfl | rfl
    · simp [ordA, leafRefs, leafRefsList] at hi
    · simp [ordB, leafRefs, leafRefsList, leafRefsValue] at hi
      subst hi
      simp [uidsOf, ordInput, ordA, ordB, ordC, ordX, Course.toInfo,
        show getCourseUID ⟨"A", 1⟩ = "A1" from rfl,
        show getCourseUID ⟨"B", 1⟩ = "B1" from rfl,
        show getCourseUID ⟨"C", 1⟩ = "C1" from rfl,
        show getCourseUID ⟨"X", 1⟩ = "X1" from rfl]
    · simp [ordC, leafRefs, leafRefsList, leafRefsValue] at hi
      rcases hi with rfl | rfl <;>
        simp [uidsOf, ordInput, ordA, ordB, ordC, ordX, Course.toInfo,
          show getCourseUID ⟨"A", 1⟩ = "A1" from rfl,
          show getCourseUID ⟨"B", 1⟩ = "B1" from rfl,
          show getCourseUID ⟨"C", 1⟩ = "C1" from rfl,
          show getCourseUID ⟨"X", 1⟩ = "X1" from rfl]
    · simp [ordX, leafRefs, leafRefsList, leafRefsValue] at hi
      subst hi
      simp [uidsOf, ordInput, ordA, ordB, ordC, ordX, Course.toInfo,
        show getCourseUID ⟨"A", 1⟩ = "A1" from rfl,
        show getCourseUID ⟨"B", 1⟩ = "B1" from rfl,
        show getCourseUID ⟨"C", 1⟩ = "C1" from rfl,
        show getCourseUID ⟨"X", 1⟩ = "X1" from rfl]
  · intro c hc i hi
    simp [ordInput] at hc
    rcases hc with rfl | rfl | rfl | rfl
    · simp [ordA, leafRefs, leafRefsList] at hi
    · simp [ordB, leafRefs, leafRefsList, leafRefsValue] at hi
      subst hi
      simp [ordRank, ordA, ordB, ordC, ordX, Course.toInfo,
        show getCourseUID ⟨"A", 1⟩ = "A1" from rfl,
        show getCourseUID ⟨"B", 1⟩ = "B1" from rfl,
        show getCourseUID ⟨"C", 1⟩ = "C1" from rfl,
        show getCourseUID ⟨"X", 1⟩ = "X1" from rfl]
    · simp [ordC, leafRefs, leafRefsList, leafRefsValue] at hi
      rcases hi with rfl | rfl <;>
        simp [ordRank, ordA, ordB, ordC, ordX, Course.toInfo,
          show getCourseUID ⟨"A", 1⟩ = "A1" from rfl,
          show getCourseUID ⟨"B", 1⟩ = "B1" from rfl,
          show getCourseUID ⟨"C", 1⟩ = "C1" from rfl,
          show getCourseUID ⟨"X", 1⟩ = "X1" from rfl]
    · simp [ordX, leafRefs, leafRefsList, leafRefsValue] at hi
      subst hi
      simp [ordRank, ordA, ordB, ordC, ordX, Course.toInfo,
        show getCourseUID ⟨"A", 1⟩ = "A1" from rfl,
        show getCourseUID ⟨"B", 1⟩ = "B1" from rfl,
        show getCourseUID ⟨"C", 1⟩ = "C1" from rfl,
        show getCourseUID ⟨"X", 1⟩ = "X1" from rfl]
